import Mathlib

/-!
# The Square-Sum Problem Solver — verification development

Shallow embedding of `the-square-sum-solver-all-paths.py`: an incremental
solver that, for successively larger ranges `1..n`, tracks every simple path
in the graph whose vertices are `1..n` and whose edges join numbers summing
to a perfect square, and reports the Hamiltonian ones.

Vertices carry no state beyond their integer id, so the Python `Vertex`
objects are embedded directly as natural numbers.
-/

namespace SquareSum

/-- The `Path` class: a sequence of vertex ids together with its cached
`start`, `end`, member dictionary (embedded as its key list, in insertion
order) and edge count `length`. -/
structure Path where
  start : Nat
  «end» : Nat
  vertices : List Nat
  path : List Nat
  length : Nat
deriving DecidableEq, Repr

/-- `Path.countLength`: a path's length is its vertex count minus one. -/
def Path.countLength (p : List Nat) : Nat := p.length - 1

/-- The `Path` constructor `Path(vertex)`: the singleton path on one vertex. -/
def Path.single (v : Nat) : Path :=
  { start := v, «end» := v, vertices := [v], path := [v]
    length := Path.countLength [v] }

/-- `Path.hasVertex`: membership of an id in the member dictionary. -/
def Path.hasVertex (p : Path) (v : Nat) : Bool := p.vertices.contains v

/-- `Path.hasVertices`: does any vertex of the given list occur in `p`? -/
def Path.hasVertices (p : Path) (vs : List Nat) : Bool := vs.any p.hasVertex

/-- Dictionary insertion: a key already present keeps its position, a new
key is appended at the end (Python dicts preserve insertion order). -/
def insertVertex (l : List Nat) (k : Nat) : List Nat :=
  if l.contains k then l else l ++ [k]

/-- `Path.appendVertices`: fold the second member dictionary's keys into the
first, in order. -/
def Path.appendVertices (l ks : List Nat) : List Nat := ks.foldl insertVertex l

/-- `Path.mergePaths`: concatenate two paths; `start` comes from the first,
`end` from the second, the member dictionaries are unioned, and `length` is
recomputed from the concatenated sequence. -/
def Path.mergePaths (p q : Path) : Path :=
  { start := p.start
    «end» := q.«end»
    vertices := Path.appendVertices p.vertices q.vertices
    path := p.path ++ q.path
    length := Path.countLength (p.path ++ q.path) }

/-- Solver state: the step counter `i` and the accumulated path store. -/
structure SquareSumSolver where
  i : Nat
  paths : List Path
deriving DecidableEq, Repr

/-- Fuel-based integer square root (`⌊√n⌋` once the fuel dominates the
number of base-4 digits of `n`); structural recursion on the fuel keeps it
evaluable by the kernel. -/
def isqrtAux : Nat → Nat → Nat
  | 0, _ => 0
  | fuel + 1, n =>
    if n < 2 then n
    else
      let r := 2 * isqrtAux fuel (n / 4)
      if (r + 1) * (r + 1) ≤ n then r + 1 else r

/-- Exact integer square root: `n` itself is always enough fuel. -/
def isqrt (n : Nat) : Nat := isqrtAux n n

/-- The connectivity test of `getVertexConnections`: is `a + b` a perfect
square?  The source compares `math.sqrt(a+b)` with its floor; in terms of
exact integer arithmetic that test accepts `a + b` precisely when its integer
square root squares back to it (the two agree whenever `a + b` is small
enough for the double-precision square root to be exact; the divergence
beyond that range is recorded with the connectivity-check analysis below). -/
def isSquareSum (a b : Nat) : Bool :=
  isqrt (a + b) * isqrt (a + b) == a + b

/-- `getVertexConnections`: the ids `1 ≤ k < v` with `k + v` a perfect
square, in increasing order (the dictionary's key list). -/
def getVertexConnections (v : Nat) : List Nat :=
  (List.range' 1 (v - 1)).filter (fun k => isSquareSum k v)

/-- `checkVertexWithConnections`: key membership in the connection dict. -/
def checkVertexWithConnections (v : Nat) (conns : List Nat) : Bool :=
  conns.contains v

/-- `appendExistingPaths`: the direct-extension batch for new vertex `v` —
the singleton `[v]` first, then every store path whose end connects to `v`,
extended by `v`. -/
def appendExistingPaths (v : Nat) (conns : List Nat) (paths : List Path) :
    List Path :=
  Path.single v ::
    paths.filterMap (fun p =>
      if checkVertexWithConnections p.«end» conns then
        some (Path.mergePaths p (Path.single v))
      else none)

/-- `expandAppendedPaths`: the bridging-merge batch.  For every appended
path `p` and every store path `q`, merge `p ++ q` when `q` is short enough
(`q.length ≤ i - p.length - 2`, computed in ℤ as Python's `int` arithmetic
never truncates), `q.start` connects to the new vertex, and `q` is
vertex-disjoint from `p`. -/
def expandAppendedPaths (conns : List Nat) (i : Nat)
    (paths newAppendedPaths : List Path) : List Path :=
  newAppendedPaths.flatMap (fun p =>
    let maxLength : Int := (i : Int) - (p.length : Int) - 2
    paths.filterMap (fun q =>
      if (q.length : Int) > maxLength then none
      else if ¬ checkVertexWithConnections q.start conns then none
      else if p.hasVertices q.path then none
      else some (Path.mergePaths p q)))

/-- `solveNext` minus the printing: increment the counter, expand the store
with the new vertex (`expandPaths` + `mergeAllPaths`). -/
def solveNext (s : SquareSumSolver) : SquareSumSolver :=
  let i := s.i + 1
  let conns := getVertexConnections i
  let apnd := appendExistingPaths i conns s.paths
  let ext := expandAppendedPaths conns i s.paths apnd
  { i := i, paths := s.paths ++ apnd ++ ext }

/-- `getSolutions`: the store paths of length `i - 1`, i.e. the paths
visiting every vertex of `1..i` exactly once. -/
def getSolutions (s : SquareSumSolver) : List Path :=
  s.paths.filter (fun p => p.length == s.i - 1)

/-- The solver state after `n` calls of `solveNext` from the initial state. -/
def solverAt : Nat → SquareSumSolver
  | 0 => { i := 0, paths := [] }
  | n + 1 => solveNext (solverAt n)

/-- The connection dict computed at the step that processes `v = n + 1`. -/
def stepConns (n : Nat) : List Nat := getVertexConnections (n + 1)

/-- The direct-extension batch of the step that processes `v = n + 1`. -/
def stepAppended (n : Nat) : List Path :=
  appendExistingPaths (n + 1) (stepConns n) (solverAt n).paths

/-- The bridging-merge batch of the step that processes `v = n + 1`. -/
def stepExtended (n : Nat) : List Path :=
  expandAppendedPaths (stepConns n) (n + 1) (solverAt n).paths (stepAppended n)

/-!
## Correctness of the integer square root
-/

/-- With fuel dominating the base-4 digit count, `isqrtAux` brackets its
input between consecutive squares. -/
theorem isqrtAux_spec :
    ∀ fuel n : Nat, n < 4 ^ fuel →
      isqrtAux fuel n * isqrtAux fuel n ≤ n ∧
        n < (isqrtAux fuel n + 1) * (isqrtAux fuel n + 1) := by
  intro fuel
  induction fuel with
  | zero =>
    intro n h
    have hn : n = 0 := by simpa using h
    subst hn
    simp [isqrtAux]
  | succ f ih =>
    intro n h
    by_cases h2 : n < 2
    · have e : isqrtAux (f + 1) n = n := by
        simp [isqrtAux, h2]
      rw [e]
      interval_cases n
      · simp
      · simp
    · have hdiv : n / 4 < 4 ^ f := by
        have h4 : (0 : Nat) < 4 := by norm_num
        rw [Nat.div_lt_iff_lt_mul h4]
        calc n < 4 ^ (f + 1) := h
          _ = 4 ^ f * 4 := pow_succ 4 f
      obtain ⟨hl, hr⟩ := ih (n / 4) hdiv
      set s := isqrtAux f (n / 4) with hs
      have e : isqrtAux (f + 1) n =
          if (2 * s + 1) * (2 * s + 1) ≤ n then 2 * s + 1 else 2 * s := by
        simp only [isqrtAux, if_neg h2, ← hs]
      have k1 : 4 * (n / 4) ≤ n := by omega
      have k2 : n < 4 * (n / 4) + 4 := by omega
      rw [e]
      split
      next hle =>
        refine ⟨hle, ?_⟩
        nlinarith [hr, k2]
      next hgt =>
        push_neg at hgt
        refine ⟨?_, hgt⟩
        nlinarith [hl, k1]

/-- `isqrt n` is the exact integer square root of `n`. -/
theorem isqrt_le_and_lt (n : Nat) :
    isqrt n * isqrt n ≤ n ∧ n < (isqrt n + 1) * (isqrt n + 1) :=
  isqrtAux_spec n n (Nat.lt_pow_self (by norm_num) n)

/-- The embedded connectivity test accepts exactly the perfect-square sums. -/
theorem isSquareSum_iff (a b : Nat) :
    isSquareSum a b = true ↔ ∃ k, k * k = a + b := by
  unfold isSquareSum
  rw [beq_iff_eq]
  constructor
  · exact fun h => ⟨isqrt (a + b), h⟩
  · rintro ⟨k, hk⟩
    obtain ⟨h1, h2⟩ := isqrt_le_and_lt (a + b)
    have hks : k = isqrt (a + b) := by
      rcases Nat.lt_trichotomy k (isqrt (a + b)) with h | h | h
      · have := Nat.mul_self_lt_mul_self h
        linarith
      · exact h
      · have := Nat.mul_self_le_mul_self (Nat.succ_le_of_lt h)
        linarith
    rw [← hks, hk]

/-- The connectivity test is symmetric. -/
theorem isSquareSum_comm (a b : Nat) : isSquareSum a b = isSquareSum b a := by
  simp [isSquareSum, Nat.add_comm]

/-!
## Membership characterizations of the expansion steps
-/

/-- The connection dict of `v` holds exactly the smaller ids with a
square sum with `v`. -/
theorem mem_getVertexConnections {k v : Nat} :
    k ∈ getVertexConnections v ↔ 1 ≤ k ∧ k < v ∧ isSquareSum k v = true := by
  simp only [getVertexConnections, List.mem_filter, List.mem_range'_1]
  constructor
  · rintro ⟨⟨ha, hb⟩, hc⟩
    exact ⟨ha, by omega, hc⟩
  · rintro ⟨ha, hb, hc⟩
    exact ⟨⟨ha, by omega⟩, hc⟩

/-- The connection-dict lookup is plain membership. -/
theorem checkVertexWithConnections_iff (v : Nat) (conns : List Nat) :
    checkVertexWithConnections v conns = true ↔ v ∈ conns := by
  simp [checkVertexWithConnections]

/-- Membership in the direct-extension batch: the singleton on `v`, or an
existing path whose end connects to `v`, extended by `v`. -/
theorem mem_appendExistingPaths {v : Nat} {conns : List Nat}
    {paths : List Path} {r : Path} :
    r ∈ appendExistingPaths v conns paths ↔
      r = Path.single v ∨
        ∃ p, p ∈ paths ∧ checkVertexWithConnections p.«end» conns = true ∧
          r = Path.mergePaths p (Path.single v) := by
  simp only [appendExistingPaths, List.mem_cons, List.mem_filterMap]
  apply or_congr Iff.rfl
  constructor
  · rintro ⟨p, hp, he⟩
    by_cases hc : checkVertexWithConnections p.«end» conns = true
    · rw [if_pos hc] at he
      exact ⟨p, hp, hc, (Option.some_inj.mp he).symm⟩
    · rw [if_neg hc] at he
      cases he
  · rintro ⟨p, hp, hc, hr⟩
    exact ⟨p, hp, by rw [if_pos hc, hr]⟩

/-- Membership in the bridging-merge batch: a merge of an appended path
with a store path that passes the length bound, the connection test on its
start, and the vertex-disjointness test. -/
theorem mem_expandAppendedPaths {conns : List Nat} {i : Nat}
    {paths apnd : List Path} {r : Path} :
    r ∈ expandAppendedPaths conns i paths apnd ↔
      ∃ p, p ∈ apnd ∧ ∃ q, q ∈ paths ∧
        ¬((q.length : Int) > (i : Int) - (p.length : Int) - 2) ∧
        checkVertexWithConnections q.start conns = true ∧
        p.hasVertices q.path = false ∧
        r = Path.mergePaths p q := by
  simp only [expandAppendedPaths, List.mem_flatMap, List.mem_filterMap]
  constructor
  · rintro ⟨p, hp, q, hq, he⟩
    by_cases c1 : (q.length : Int) > (i : Int) - (p.length : Int) - 2
    · rw [if_pos c1] at he
      cases he
    · rw [if_neg c1] at he
      by_cases c2 : checkVertexWithConnections q.start conns = true
      · rw [if_neg (not_not_intro c2)] at he
        by_cases c3 : p.hasVertices q.path = true
        · rw [if_pos c3] at he
          cases he
        · rw [if_neg c3] at he
          exact ⟨p, hp, q, hq, c1, c2, Bool.eq_false_iff.mpr c3,
            (Option.some_inj.mp he).symm⟩
      · rw [if_pos c2] at he
        cases he
  · rintro ⟨p, hp, q, hq, c1, c2, c3, hr⟩
    refine ⟨p, hp, q, hq, ?_⟩
    rw [if_neg c1, if_neg (not_not_intro c2), if_neg (by simp [c3]), hr]

/-- The counter of the solver state after `n` steps is `n`. -/
theorem solverAt_i (n : Nat) : (solverAt n).i = n := by
  induction n with
  | zero => rfl
  | succ n ih => simp [solverAt, solveNext, ih]

/-- One step of the driver appends the direct-extension batch and then the
bridging-merge batch to the store. -/
theorem solverAt_succ_paths (n : Nat) :
    (solverAt (n + 1)).paths =
      (solverAt n).paths ++ stepAppended n ++ stepExtended n := by
  simp only [solverAt, solveNext, solverAt_i, stepAppended, stepExtended,
    stepConns]

/-- Every path of the direct-extension batch for `v` ends at `v`. -/
theorem appendExistingPaths_end {v : Nat} {conns : List Nat}
    {paths : List Path} {r : Path} (hr : r ∈ appendExistingPaths v conns paths) :
    r.«end» = v := by
  rcases mem_appendExistingPaths.mp hr with h | ⟨p, _, _, h⟩ <;> subst h <;> rfl

/-- Membership in a merged member dictionary is membership in either
operand's dictionary. -/
theorem mem_appendVertices :
    ∀ (ks l : List Nat) (x : Nat),
      x ∈ Path.appendVertices l ks ↔ x ∈ l ∨ x ∈ ks := by
  intro ks
  induction ks with
  | nil => simp [Path.appendVertices]
  | cons k ks ih =>
    intro l x
    have e : Path.appendVertices l (k :: ks) =
        Path.appendVertices (insertVertex l k) ks := rfl
    rw [e, ih]
    have hi : x ∈ insertVertex l k ↔ x ∈ l ∨ x = k := by
      unfold insertVertex
      by_cases hc : l.contains k = true
      · rw [if_pos hc]
        have hk : k ∈ l := by simpa using hc
        constructor
        · exact Or.inl
        · rintro (h | h)
          · exact h
          · rwa [h]
      · rw [if_neg hc]
        simp
    rw [hi]
    simp only [List.mem_cons]
    tauto

/-!
## The well-formedness invariant of the store
-/

/-- A well-formed path over the range `1..n`: the cached `start`, `end`,
`length` and member dictionary agree with the sequence, adjacent vertices
have square sums, no vertex repeats, and all vertices lie in `1..n`. -/
structure GoodPath (n : Nat) (p : Path) : Prop where
  head_eq : p.path.head? = some p.start
  last_eq : p.path.getLast? = some p.«end»
  chain : List.Chain' (fun a b => isSquareSum a b = true) p.path
  nodup : p.path.Nodup
  vert_iff : ∀ x, x ∈ p.vertices ↔ x ∈ p.path
  length_eq : p.length = p.path.length - 1
  bounded : ∀ x ∈ p.path, 1 ≤ x ∧ x ≤ n

/-- Well-formedness is monotone in the range bound. -/
theorem GoodPath.mono {m n : Nat} {p : Path} (h : m ≤ n) (hp : GoodPath m p) :
    GoodPath n p :=
  { hp with
    bounded := fun x hx => ⟨(hp.bounded x hx).1, le_trans (hp.bounded x hx).2 h⟩ }

/-- The singleton path on `v` is well formed over any range containing `v`. -/
theorem goodPath_single {v : Nat} (hv : 1 ≤ v) : GoodPath v (Path.single v) where
  head_eq := rfl
  last_eq := rfl
  chain := List.chain'_singleton v
  nodup := List.nodup_singleton v
  vert_iff := fun x => Iff.rfl
  length_eq := rfl
  bounded := by
    intro x hx
    have hxv : x = v := by simpa [Path.single] using hx
    rw [hxv]
    exact ⟨hv, le_refl v⟩

/-- Merging two well-formed paths whose junction has a square sum and whose
sequences are disjoint yields a well-formed path. -/
theorem goodPath_merge {n : Nat} {p q : Path}
    (hp : GoodPath n p) (hq : GoodPath n q)
    (hconn : isSquareSum p.«end» q.start = true)
    (hdisj : ∀ x ∈ q.path, x ∉ p.path) :
    GoodPath n (Path.mergePaths p q) where
  head_eq := by
    show (p.path ++ q.path).head? = some p.start
    rw [List.head?_append, hp.head_eq]
    rfl
  last_eq := by
    show (p.path ++ q.path).getLast? = some q.«end»
    rw [List.getLast?_append, hq.last_eq]
    rfl
  chain := by
    refine hp.chain.append hq.chain ?_
    intro x hx y hy
    rw [hp.last_eq] at hx
    rw [hq.head_eq] at hy
    have hx' : p.«end» = x := by simpa using hx
    have hy' : q.start = y := by simpa using hy
    rw [← hx', ← hy']
    exact hconn
  nodup := by
    show (p.path ++ q.path).Nodup
    rw [List.nodup_append]
    refine ⟨hp.nodup, hq.nodup, ?_⟩
    intro a ha hb
    exact hdisj a hb ha
  vert_iff := by
    intro x
    show x ∈ Path.appendVertices p.vertices q.vertices ↔ x ∈ p.path ++ q.path
    rw [mem_appendVertices, hp.vert_iff, hq.vert_iff, List.mem_append]
  length_eq := rfl
  bounded := by
    intro x hx
    rcases List.mem_append.mp hx with h | h
    · exact hp.bounded x h
    · exact hq.bounded x h

/-- The store invariant: after `n` steps every stored path is well formed
over `1..n`. -/
theorem storeInv : ∀ n, ∀ p ∈ (solverAt n).paths, GoodPath n p := by
  intro n
  induction n with
  | zero =>
    intro p hp
    simp [solverAt] at hp
  | succ n ih =>
    have happnd : ∀ r ∈ stepAppended n, GoodPath (n + 1) r := by
      intro r hr
      rcases mem_appendExistingPaths.mp hr with h | ⟨p', hp', hc, h⟩
      · subst h
        exact goodPath_single (Nat.succ_le_succ (Nat.zero_le n))
      · subst h
        have hg := (ih p' hp').mono (Nat.le_succ n)
        have hcm := mem_getVertexConnections.mp
          ((checkVertexWithConnections_iff _ _).mp hc)
        refine goodPath_merge hg
          (goodPath_single (Nat.succ_le_succ (Nat.zero_le n))) ?_ ?_
        · exact hcm.2.2
        · intro x hx hxp
          have hx' : x = n + 1 := by simpa [Path.single] using hx
          subst hx'
          have := ((ih p' hp').bounded _ hxp).2
          omega
    intro p hp
    rw [solverAt_succ_paths] at hp
    rcases List.mem_append.mp hp with hp1 | hext
    · rcases List.mem_append.mp hp1 with hold | hap
      · exact (ih p hold).mono (Nat.le_succ n)
      · exact happnd p hap
    · rcases mem_expandAppendedPaths.mp hext with
        ⟨p', hp', q', hq', c1, c2, c3, hr⟩
      subst hr
      have hgp := happnd p' hp'
      have hgq := (ih q' hq').mono (Nat.le_succ n)
      have hend : p'.«end» = n + 1 := appendExistingPaths_end hp'
      have hcm := mem_getVertexConnections.mp
        ((checkVertexWithConnections_iff _ _).mp c2)
      refine goodPath_merge hgp hgq ?_ ?_
      · rw [hend, isSquareSum_comm]
        exact hcm.2.2
      · intro x hxq hxp
        have hfalse := List.any_eq_false.mp c3 x hxq
        have : x ∈ p'.vertices := (hgp.vert_iff x).mpr hxp
        have : p'.hasVertex x = true := by
          simpa [Path.hasVertex] using this
        exact hfalse this

/-- Every path of the direct-extension batch is well formed over the new
range. -/
theorem stepAppended_good {n : Nat} {p : Path} (hp : p ∈ stepAppended n) :
    GoodPath (n + 1) p := by
  have : p ∈ (solverAt (n + 1)).paths := by
    rw [solverAt_succ_paths]
    exact List.mem_append.mpr (Or.inl (List.mem_append.mpr (Or.inr hp)))
  exact storeInv (n + 1) p this

/-!
## The claims
-/

set_option maxRecDepth 100000

set_option maxHeartbeats 2000000

/-- `2 ^ 52 + 1` is not a perfect square: `(2 ^ 26) ^ 2` falls one short
and `(2 ^ 26 + 1) ^ 2` overshoots. -/
theorem not_square_two_pow_52_add_one : ¬ ∃ k : Nat, k * k = 1 + 2 ^ 52 := by
  rintro ⟨k, hk⟩
  norm_num at hk
  rcases le_or_lt k 67108864 with h | h
  · have h2 := Nat.mul_self_le_mul_self h
    rw [hk] at h2
    norm_num at h2
  · have h2 := Nat.mul_self_le_mul_self (Nat.succ_le_of_lt h)
    rw [hk] at h2
    norm_num at h2

/-- **C1**: the connectivity check of the source is *not* exact at every
magnitude.  At `a = 1`, `b = 2 ^ 52` the sum `2 ^ 52 + 1` is not a perfect
square (first two conjuncts, stated through the exact embedded check and
directly), yet the last two conjuncts bracket `√(2 ^ 52 + 1)` strictly
between `2 ^ 26` and `2 ^ 26 + 2 ^ (-27)`, i.e. strictly inside the lower
half-ulp interval of the double `2 ^ 26`; the correctly rounded
double-precision `math.sqrt` of the source therefore returns exactly
`2 ^ 26.0`, an integer, and the source's `sqrtSum == floor(sqrtSum)` test
reports a perfect square — a false positive. -/
theorem connectivity_float_false_positive :
    isSquareSum 1 (2 ^ 52) = false ∧
    (¬ ∃ k : Nat, k * k = 1 + 2 ^ 52) ∧
    (2 ^ 26 : Nat) * 2 ^ 26 < 1 + 2 ^ 52 ∧
    (1 + 2 ^ 52 : Nat) * 2 ^ 54 < (2 ^ 53 + 1) * (2 ^ 53 + 1) := by
  have hnk := not_square_two_pow_52_add_one
  have hb : isSquareSum 1 (2 ^ 52) = false := by
    rcases Bool.eq_false_or_eq_true (isSquareSum 1 (2 ^ 52)) with h | h
    · exact absurd ((isSquareSum_iff 1 (2 ^ 52)).mp h) hnk
    · exact h
  exact ⟨hb, hnk, by norm_num, by norm_num⟩

/-- **C2** (counterexample): at the step that processes `v = 15` (prior
store range `1..14`), the appended path `p = [8,1,15]` (`p.length = 2`) *is*
merged with the store path `q = [10,6,3,13,12,4,5,11,14,2,7,9]`, although
`q.length = 11` exceeds the claimed bound `n - p.length - 2 = 10`: the code
computes `maxLength` from the already-incremented counter `i = n + 1`. -/
theorem merge_bound_counterexample :
    (⟨8, 15, [8, 1, 15], [8, 1, 15], 2⟩ : Path) ∈ stepAppended 14 ∧
    (⟨10, 9, [10, 6, 3, 13, 12, 4, 5, 11, 14, 2, 7, 9],
        [10, 6, 3, 13, 12, 4, 5, 11, 14, 2, 7, 9], 11⟩ : Path) ∈
      (solverAt 14).paths ∧
    (11 : Nat) > 14 - 2 - 2 ∧
    Path.mergePaths ⟨8, 15, [8, 1, 15], [8, 1, 15], 2⟩
        ⟨10, 9, [10, 6, 3, 13, 12, 4, 5, 11, 14, 2, 7, 9],
          [10, 6, 3, 13, 12, 4, 5, 11, 14, 2, 7, 9], 11⟩ ∈
      stepExtended 14 := by
  decide

/-- **C2** (amended): in the bridging-merge step over the store for
`1..n` with new vertex `v = n + 1`, the merge `p ++ q` is produced exactly
for the pairs with `q.start` in `connections(v)`, `q` vertex-disjoint from
`p`, and `q.length ≤ maxLength` where `maxLength = (n + 1) - p.length - 2
= n - p.length - 1` (evaluated in ℤ): the code derives the bound from the
already-incremented counter `i = n + 1`, not from `n`. -/
theorem bridging_merge_characterization (n : Nat) :
    (∀ p ∈ stepAppended n, ∀ q ∈ (solverAt n).paths,
        checkVertexWithConnections q.start (stepConns n) = true →
        p.hasVertices q.path = false →
        (q.length : Int) ≤ (n : Int) - (p.length : Int) - 1 →
        Path.mergePaths p q ∈ stepExtended n) ∧
    (∀ r ∈ stepExtended n, ∃ p ∈ stepAppended n, ∃ q ∈ (solverAt n).paths,
        r = Path.mergePaths p q ∧
        checkVertexWithConnections q.start (stepConns n) = true ∧
        p.hasVertices q.path = false ∧
        (q.length : Int) ≤ (n : Int) - (p.length : Int) - 1) := by
  constructor
  · intro p hp q hq hc hd hl
    refine mem_expandAppendedPaths.mpr ⟨p, hp, q, hq, ?_, hc, hd, rfl⟩
    push_cast
    omega
  · intro r hr
    rcases mem_expandAppendedPaths.mp hr with ⟨p, hp, q, hq, c1, c2, c3, hrr⟩
    refine ⟨p, hp, q, hq, hrr, c2, c3, ?_⟩
    push_cast at c1 ⊢
    omega

/-- Witness for the amended C2 at the step that processes `v = 3`. -/
theorem bridging_merge_characterization_witness :
    Path.mergePaths (Path.single 3) (Path.single 1) ∈ stepExtended 2 :=
  (bridging_merge_characterization 2).1 (Path.single 3) (by decide)
    (Path.single 1) (by decide) (by decide) (by decide) (by decide)

/-- Under the *exact* embedded connectivity test, every path reported by
the solution extractor, at every step, has only adjacent pairs summing to
a perfect square.  This is the idealized consequence of the store
invariant; the source's floating-point test diverges from the exact test
at sums of `2 ^ 52 + 1` and beyond, and there the real store invariant
breaks (see the false-positive analysis around `2 ^ 52 + 1`). -/
theorem solutions_square_chain_of_exact_check (n : Nat) (p : Path)
    (hp : p ∈ getSolutions (solverAt n)) :
    List.Chain' (fun a b => ∃ k, k * k = a + b) p.path := by
  have hps : p ∈ (solverAt n).paths := (List.mem_filter.mp hp).1
  exact ((storeInv n p hps).chain).imp
    (fun a b h => (isSquareSum_iff a b).mp h)

/-- **C3**: the square-sum guarantee for reported solutions rests on the
invariant that every path ever added to the store has only square-summing
adjacent pairs, and the source's floating-point connectivity check breaks
that invariant.  At the step that processes `v = 2 ^ 52` the float test
accepts the pair `(1, 2 ^ 52)` (the false-positive analysis of the
connectivity check), so the connection dict the source computes for `v`
contains the key `1`; the store has held the singleton path `[1]` since
step 1; and, fed that dict, the direct-extension step emits the path
`[1, 2 ^ 52]` into the store — a stored path with an adjacent pair whose
sum `2 ^ 52 + 1` is *not* a perfect square.  Solutions reported at such
magnitudes therefore lose the claimed guarantee, although every step the
program can actually reach computes with exact float sums. -/
theorem square_chain_breaks_under_float_connection :
    Path.mergePaths (Path.single 1) (Path.single (2 ^ 52)) ∈
      appendExistingPaths (2 ^ 52) [1] [Path.single 1] ∧
    (Path.mergePaths (Path.single 1) (Path.single (2 ^ 52))).path
      = [1, 2 ^ 52] ∧
    ¬ List.Chain' (fun a b => ∃ k, k * k = a + b)
        (Path.mergePaths (Path.single 1) (Path.single (2 ^ 52))).path := by
  refine ⟨by decide, rfl, ?_⟩
  intro h
  exact not_square_two_pow_52_add_one (List.chain'_cons.mp h).1

/-- **C4**: after the step that processes `n = 15` the extractor reports at
least one solution, and the sequence `8,1,15,10,6,3,13,12,4,5,11,14,2,7,9`
is among the reported solutions. -/
theorem step15_reports_ok_with_known_solution :
    getSolutions (solverAt 15) ≠ [] ∧
      ∃ p ∈ getSolutions (solverAt 15),
        p.path = [8, 1, 15, 10, 6, 3, 13, 12, 4, 5, 11, 14, 2, 7, 9] := by
  constructor
  · decide
  · decide

/-- **C5**: every stored path is well formed — its `length` is the size of
its sequence minus one, the sequence has no repeated vertex, and the member
dictionary holds exactly the vertices of the sequence. -/
theorem store_paths_well_formed (n : Nat) (p : Path)
    (hp : p ∈ (solverAt n).paths) :
    p.length = p.path.length - 1 ∧ p.path.Nodup ∧
      ∀ x, x ∈ p.vertices ↔ x ∈ p.path := by
  have h := storeInv n p hp
  exact ⟨h.length_eq, h.nodup, h.vert_iff⟩

/-- Witness for C5 at step 1. -/
theorem store_paths_well_formed_witness :
    (Path.single 1).length = (Path.single 1).path.length - 1 ∧
      (Path.single 1).path.Nodup ∧
      ∀ x, x ∈ (Path.single 1).vertices ↔ x ∈ (Path.single 1).path :=
  store_paths_well_formed 1 (Path.single 1) (by decide)

/-- **C6**: the store is append-only — one driver step extends the store
list on the right, so every previously stored path is still present,
structurally unchanged and in its old position, after the step. -/
theorem store_append_only (n : Nat) :
    ∃ l, (solverAt (n + 1)).paths = (solverAt n).paths ++ l :=
  ⟨stepAppended n ++ stepExtended n, by
    rw [solverAt_succ_paths, List.append_assoc]⟩

/-- **C7**: the direct-extension batch for `v = n + 1` consists of exactly
the singleton `[v]` (unconditionally) and, for every store path `p` whose
end is in `connections(v)`, the path `p` with `v` appended at its end. -/
theorem direct_extension_batch (n : Nat) :
    Path.single (n + 1) ∈ stepAppended n ∧
    (∀ p ∈ (solverAt n).paths,
        checkVertexWithConnections p.«end» (stepConns n) = true →
          Path.mergePaths p (Path.single (n + 1)) ∈ stepAppended n) ∧
    (∀ r ∈ stepAppended n,
        r = Path.single (n + 1) ∨
          ∃ p ∈ (solverAt n).paths,
            checkVertexWithConnections p.«end» (stepConns n) = true ∧
              r = Path.mergePaths p (Path.single (n + 1))) ∧
    ∀ p : Path,
      (Path.mergePaths p (Path.single (n + 1))).path = p.path ++ [n + 1] := by
  refine ⟨mem_appendExistingPaths.mpr (Or.inl rfl), ?_, ?_, fun p => rfl⟩
  · intro p hp hc
    exact mem_appendExistingPaths.mpr (Or.inr ⟨p, hp, hc, rfl⟩)
  · intro r hr
    rcases mem_appendExistingPaths.mp hr with h | ⟨p, hp, hc, h⟩
    · exact Or.inl h
    · exact Or.inr ⟨p, hp, hc, h⟩

/-- Witness for C7 at the step that processes `v = 3`, extending `[1]`. -/
theorem direct_extension_batch_witness :
    Path.mergePaths (Path.single 1) (Path.single 3) ∈ stepAppended 2 :=
  (direct_extension_batch 2).2.1 (Path.single 1) (by decide) (by decide)

/-- **C8**: every bridging merge performed at any step merges an appended
path `p` with a store path `q` with disjoint member sets, and the result's
sequence is `p`'s followed by `q`'s, its start is `p.start`, its end is
`q.end`, and its member set is the union of the two member sets. -/
theorem bridging_merge_shape (n : Nat) (r : Path) (hr : r ∈ stepExtended n) :
    ∃ p ∈ stepAppended n, ∃ q ∈ (solverAt n).paths,
      r = Path.mergePaths p q ∧
      (∀ x, ¬(x ∈ p.vertices ∧ x ∈ q.vertices)) ∧
      r.path = p.path ++ q.path ∧
      r.start = p.start ∧
      r.«end» = q.«end» ∧
      (∀ x, x ∈ r.vertices ↔ x ∈ p.vertices ∨ x ∈ q.vertices) := by
  rcases mem_expandAppendedPaths.mp hr with ⟨p, hp, q, hq, c1, c2, c3, hrr⟩
  subst hrr
  have hgq := storeInv n q hq
  refine ⟨p, hp, q, hq, rfl, ?_, rfl, rfl, rfl, ?_⟩
  · rintro x ⟨hxp, hxq⟩
    have hxq' : x ∈ q.path := (hgq.vert_iff x).mp hxq
    have hfalse := List.any_eq_false.mp c3 x hxq'
    exact hfalse (by simpa [Path.hasVertex] using hxp)
  · intro x
    exact mem_appendVertices q.vertices p.vertices x

/-- Witness for C8 at the step that processes `v = 3`. -/
theorem bridging_merge_shape_witness :
    ∃ p ∈ stepAppended 2, ∃ q ∈ (solverAt 2).paths,
      Path.mergePaths (Path.single 3) (Path.single 1) = Path.mergePaths p q ∧
      (∀ x, ¬(x ∈ p.vertices ∧ x ∈ q.vertices)) ∧
      (Path.mergePaths (Path.single 3) (Path.single 1)).path =
        p.path ++ q.path ∧
      (Path.mergePaths (Path.single 3) (Path.single 1)).start = p.start ∧
      (Path.mergePaths (Path.single 3) (Path.single 1)).«end» = q.«end» ∧
      (∀ x, x ∈ (Path.mergePaths (Path.single 3) (Path.single 1)).vertices ↔
        x ∈ p.vertices ∨ x ∈ q.vertices) :=
  bridging_merge_shape 2 (Path.mergePaths (Path.single 3) (Path.single 1))
    (by decide)

/-- **C9**: for every `n` from 2 to 14 the solution extractor returns no
paths, i.e. the solver reports FAIL. -/
theorem steps_two_to_fourteen_fail (n : Nat) (h1 : 2 ≤ n) (h2 : n ≤ 14) :
    getSolutions (solverAt n) = [] := by
  interval_cases n <;> decide

/-- Witness for C9 at `n = 2`. -/
theorem steps_two_to_fourteen_fail_witness :
    (2 ≤ 2 ∧ 2 ≤ 14) ∧ getSolutions (solverAt 2) = [] :=
  ⟨⟨by decide, by decide⟩,
    steps_two_to_fourteen_fail 2 (by decide) (by decide)⟩

/-- **C10**: after processing `1..n` every stored path has its vertices in
`1..n`; consequently the direct extension of any stored path by the new
vertex `n + 1` has pairwise-distinct vertices although the extension step
performs no disjointness check. -/
theorem store_bounded_and_extension_nodup (n : Nat) (p : Path)
    (hp : p ∈ (solverAt n).paths) :
    (∀ x ∈ p.path, 1 ≤ x ∧ x ≤ n) ∧
      (Path.mergePaths p (Path.single (n + 1))).path.Nodup := by
  have h := storeInv n p hp
  refine ⟨h.bounded, ?_⟩
  show (p.path ++ [n + 1]).Nodup
  rw [List.nodup_append]
  refine ⟨h.nodup, List.nodup_singleton _, ?_⟩
  intro a ha hb
  have hab : a = n + 1 := by simpa using hb
  have := (h.bounded a ha).2
  omega

/-- Witness for C10 at step 1. -/
theorem store_bounded_and_extension_nodup_witness :
    (∀ x ∈ (Path.single 1).path, 1 ≤ x ∧ x ≤ 1) ∧
      (Path.mergePaths (Path.single 1) (Path.single 2)).path.Nodup :=
  store_bounded_and_extension_nodup 1 (Path.single 1) (by decide)

end SquareSum
